import Mathlib

/-!
Verification of the CryptoMiniSat solver core (`src/solver.cpp`,
`Solver/XorSubsumer.h`) against its natural-language specification.

The C++ code is shallowly embedded: machine integers become `Nat` with an
explicit `% 2^64` where unsigned overflow matters, `double` arithmetic is
modelled by exact rationals, and stateful member functions become explicit
functions on a `SolverState` record.  Literals keep the solver's encoding
`2*var + sign`.
-/

namespace CMS

/-- Three-valued truth value, mirroring `lbool` (`l_True`, `l_False`,
`l_Undef`). -/
inductive Lbool where
  | ltrue
  | lfalse
  | lundef
deriving DecidableEq

/- A literal is its solver encoding `2*var + sign`, kept as a plain
natural number (`Lit` in the sources). -/

/-- `Lit::var()`: the variable of a literal (`x >> 1`). -/
def Lit.var (l : Nat) : Nat := l / 2

/-- `Lit::sign()`: the sign bit of a literal (`x & 1`). -/
def Lit.sign (l : Nat) : Bool := l % 2 = 1

/-- Literal negation `operator~`, which flips the low bit (`x ^ 1`):
it adds 1 to an even code and subtracts 1 from an odd code. -/
def Lit.neg (l : Nat) : Nat := if l % 2 = 1 then l - 1 else l + 1

/-- The level-0 assignment: the value of each variable (`None` = `l_Undef`).
Literal values are derived from it, so the assignment is consistent by
construction. -/
abbrev Assignment := Nat → Option Bool

/-- `value(lit)`: the value of a literal under the level-0 assignment,
sign-flipped for negative literals. -/
def litValue (a : Assignment) (l : Nat) : Option Bool :=
  (a (Lit.var l)).map fun b => if Lit.sign l then !b else b

/-!
## `Solver::sort_and_clean_clause` (solver.cpp:239-283)

The loop keeps a "previous kept literal" `p` (initially `lit_Undef`,
modelled as `none`) and an output prefix (modelled as the reversed
accumulator `acc`).  For each literal in the sorted clause, in order:
a true literal makes the function return `false` (clause satisfied, `none`
here); a literal equal to `~p` makes it return `false` (tautology); a
literal that is not false and differs from `p` is kept; all others
(false literals and duplicates of `p`) are dropped.
-/

/-- The loop of `sort_and_clean_clause` over the sorted literal list. -/
def sccGo (a : Assignment) : Option Nat → List Nat → List Nat → Option (List Nat)
  | _, acc, [] => some acc.reverse
  | p, acc, l :: rest =>
    if litValue a l = some true then none
    else if p.map Lit.neg = some l then none
    else if litValue a l ≠ some false ∧ some l ≠ p then sccGo a (some l) (l :: acc) rest
    else sccGo a p acc rest

/-- `sort_and_clean_clause`: sorts the clause by literal code (`std::sort`
over the `2*var+sign` encoding; the code skips the sort when the caller
already sorted, which is a no-op difference) and runs the cleaning loop.
`none` models `return false` (clause discarded), `some q` models
`return true` with `ps` resized to `q`. -/
def sort_and_clean_clause (a : Assignment) (ps : List Nat) : Option (List Nat) :=
  sccGo a none [] (ps.insertionSort (· ≤ ·))

/-!
## `Solver::set_max_confl` (solver.cpp:3530-3537)

`uint64_t` arithmetic is modelled with an explicit `% 2^64`.
-/

/-- `set_max_confl(max_confl)`: sets `conf.max_confl` to
`get_stats().conflicts + max_confl`, saturating at `uint64` max when the
wrap-around test `conflicts + max_confl < max_confl` fires. -/
def set_max_confl (conflicts max_confl : Nat) : Nat :=
  if (conflicts + max_confl) % 2 ^ 64 < max_confl then 2 ^ 64 - 1
  else (conflicts + max_confl) % 2 ^ 64

/-!
## `XorSubsumer::subset` (Solver/XorSubsumer.h:66-82)

`seen_tmp` is a `vec<char>` indexed by variable; it is modelled as a
`List Bool`.  The function marks the variables of `B`, scans `A`, and on
every return path (both the early `return false` and the final
`return true`) unmarks the variables of `B` again.  The `A`-scan itself
never writes `seen_tmp`, so the function is equivalent to: result =
"every variable of `A` is marked", final `seen_tmp` = `B` unmarked. -/

/-- One marking pass: `for (i = 0; i != B.size(); i++) seen_tmp[B[i].var()] = b`. -/
def markVars (b : Bool) (ls : List Nat) (seen : List Bool) : List Bool :=
  ls.foldl (fun s l => s.set (Lit.var l) b) seen

/-- `XorSubsumer::subset(A, B)`: returns the result together with the final
`seen_tmp` array. -/
def xsubset (A B : List Nat) (seen : List Bool) : Bool × List Bool :=
  let s1 := markVars true B seen
  ((A.all fun l => s1.getD (Lit.var l) false), markVars false B s1)

/-!
## Solver state and the clause-adding pipeline
(`Solver::add_clause_outside` solver.cpp:2829-2836, `Solver::add_clause_outer`
solver.cpp:753-799, `Solver::add_clause_helper` solver.cpp:686-745,
`Solver::add_clause_int` solver.cpp:295-416,
`Solver::add_xor_clause_inter` solver.cpp:195-236,
`Solver::solve_with_assumptions` solver.cpp:1432-1514)

`SolverState` carries the fields of `Solver` that the clause-adding path
reads or writes.  The model covers solver states in which no variable has
been replaced or eliminated, so the `varReplacer` substitution and the
outer-to-inter renumbering performed by `add_clause_helper` are the
identity and its `uneliminate` loop is skipped; the two configuration
flags consulted by the fatal-error gate of `add_clause_outer` are still
carried, because that gate runs before anything else.  Unit propagation
(`propagate<true>()` after enqueueing a unit) is abstracted as an explicit
function parameter `prop`; proof (FRAT) emission and SQL statistics are
output-only and are not modelled. -/

structure SolverState where
  ok : Bool
  clauseID : Nat
  unsat_cl_ID : Nat
  assign : Assignment
  trail : List Nat
  binCls : List (Nat × Nat × Bool)
  longIrredCls : List (List Nat)
  longRedCls2 : List (List Nat)
  xorclauses : List (List Nat × Bool)
  perform_occur_based_simp : Bool
  anythingHasBeenElimed : Bool

/-- `enqueue<false>(lit)` at decision level 0: append the literal to the
trail and make it true in the assignment. -/
def enqueue (s : SolverState) (l : Nat) : SolverState :=
  { s with
    trail := s.trail ++ [l]
    assign := fun v => if v = Lit.var l then some (!Lit.sign l) else s.assign v }

/-- Outcome of the outside clause-adding API.  `fatalError` models
`std::exit(-1)`; `tooLong` models `throw CMSat::TooLongClauseError()`
and carries the solver state at the throw point; `res b s` models a
normal return of `b` with post-state `s`. -/
inductive AddOutcome where
  | fatalError
  | tooLong (s : SolverState)
  | res (b : Bool) (s : SolverState)

/-- Whether the outcome is the `TooLongClauseError` throw. -/
def AddOutcome.isTooLong : AddOutcome → Bool
  | .tooLong _ => true
  | _ => false

/-- `Solver::add_clause_int` (as a state transformer).  Cleans the clause;
on `false` from the cleaner it returns `NULL` with the state unchanged.
Otherwise the clause ID counter advances: unconditionally in the plain
mode, and only when the clause changed in `remove_frat` mode (solver.cpp
lines 327-339).  The empty clause records `unsat_cl_ID` and clears `ok`
(lines 362-374); a unit is enqueued and propagated (`prop`); a binary is
attached to the binary store; a long clause is returned to the caller,
who links it into a clause list. -/
def add_clause_int (prop : SolverState → SolverState) (remove_frat : Bool)
    (s : SolverState) (lits : List Nat) (red : Bool) :
    SolverState × Option (List Nat) :=
  let sorted := lits.insertionSort (· ≤ ·)
  match sort_and_clean_clause s.assign lits with
  | none => (s, none)
  | some ps =>
    let s :=
      if remove_frat then
        if ps ≠ sorted then { s with clauseID := s.clauseID + 1 } else s
      else { s with clauseID := s.clauseID + 1 }
    match ps with
    | [] => ({ s with ok := false, unsat_cl_ID := s.clauseID }, none)
    | [l] => (prop (enqueue s l), none)
    | [l1, l2] => ({ s with binCls := (l1, l2, red) :: s.binCls }, none)
    | cl => (s, some cl)

/-- `Solver::add_clause_outer`: the fatal gate for clause adding after
blocking elimination, then `clstats.ID = ++clauseID`, then
`add_clause_helper` (here: the `ok` test and the too-long test; literal
replacement and renumbering are the identity in the modelled states),
then `add_clause_int` in `remove_frat` mode, linking a returned long
clause into `longIrredCls` or `longRedCls[2]`, and finally `return ok`. -/
def add_clause_outer (prop : SolverState → SolverState) (s : SolverState)
    (ps : List Nat) (red : Bool) : AddOutcome :=
  if s.perform_occur_based_simp && s.anythingHasBeenElimed then .fatalError
  else
    let s := { s with clauseID := s.clauseID + 1 }
    if !s.ok then .res false s
    else if 2 ^ 28 < ps.length then .tooLong s
    else
      match add_clause_int prop true s ps red with
      | (s2, some cl) =>
        let s3 :=
          if red then { s2 with longRedCls2 := cl :: s2.longRedCls2 }
          else { s2 with longIrredCls := cl :: s2.longIrredCls }
        .res s3.ok s3
      | (s2, none) => .res s2.ok s2

/-- `Solver::add_clause_outside`: `if (!ok) return false;`, then copy the
literals and call `add_clause_outer`. -/
def add_clause_outside (prop : SolverState → SolverState) (s : SolverState)
    (lits : List Nat) (red : Bool) : AddOutcome :=
  if !s.ok then .res false s
  else add_clause_outer prop s lits red

/-- Outcome of `add_xor_clause_inter`: the `TooLongClauseError` throw
(state unchanged) or a normal return. -/
inductive XorOutcome where
  | tooLong
  | res (b : Bool) (s : SolverState)

/-- Whether the XOR outcome is the `TooLongClauseError` throw. -/
def XorOutcome.isTooLong : XorOutcome → Bool
  | .tooLong => true
  | _ => false

/-- `lit ^= b`: negate a literal when `b` is set. -/
def flipIf (b : Bool) (l : Nat) : Nat := if b then Lit.neg l else l

/-- `Solver::add_xor_clause_inter`, taking the XOR already put through
`clean_xor_no_prop` (that helper is declared outside the sources at hand;
its output — the sign-normalised, cleaned variable list and adjusted
right-hand side — is taken as the input here).  The size test
`ps.size() >= (0x01UL << 28)` (line 209) comes first; an empty XOR with
`rhs` set clears `ok`; sizes 1 and 2 are turned into regular clauses via
`add_clause_int`; longer XORs are stored in `xorclauses`. -/
def add_xor_clause_inter (prop : SolverState → SolverState) (s : SolverState)
    (ps : List Nat) (rhs : Bool) : XorOutcome :=
  if 2 ^ 28 ≤ ps.length then .tooLong
  else
    match ps with
    | [] =>
      if rhs then .res false { s with clauseID := s.clauseID + 1, ok := false }
      else .res s.ok s
    | [l] =>
      let s1 := (add_clause_int prop false s [flipIf (!rhs) l] false).1
      .res s1.ok s1
    | [l1, l2] =>
      let s1 := (add_clause_int prop false s [flipIf (!rhs) l1, l2] false).1
      let s2 := (add_clause_int prop false s1
        [Lit.neg (flipIf (!rhs) l1), Lit.neg l2] false).1
      .res s2.ok s2
    | _ =>
      let s1 := { s with xorclauses := (ps, rhs) :: s.xorclauses }
      .res s1.ok s1

/-- The entry of `Solver::solve_with_assumptions`: when `ok` is already
false the status is `l_False` immediately (solver.cpp:1453-1458) and no
search runs; otherwise the rest of the pipeline (simplification and
`iterate_until_solved`), abstracted as `search`, produces the status. -/
def solve_with_assumptions (search : SolverState → Lbool) (s : SolverState) : Lbool :=
  if !s.ok then .lfalse else search s

/-!
## Variable renumbering
(`Solver::renumber_variables` solver.cpp:923-986,
`Solver::calc_renumber_saving` solver.cpp:907-921,
`Solver::calculate_interToOuter_and_outerToInter` solver.cpp:864-905)
-/

/-- The variable removal states tested by the renumbering code. -/
inductive Removed where
  | not_removed
  | elimed
  | replaced
deriving DecidableEq

/-- Per-variable data consulted by renumbering: the level-0 value
(`value(i)`) and the removal state (`varData[i].removed`). -/
structure VarInfo where
  val : Option Bool
  removed : Removed
deriving DecidableEq

/-- A variable is dead when `value(i) != l_Undef`, or it was eliminated,
or it was replaced — the filter used by both `calc_renumber_saving` and
`calculate_interToOuter_and_outerToInter`. -/
def varDead (v : VarInfo) : Bool :=
  v.val.isSome || v.removed = Removed.elimed || v.removed = Removed.replaced

/-- Whether internal variable `i` is live (not dead). -/
def liveAt (vars : List VarInfo) (i : Nat) : Bool :=
  !varDead (vars.getD i ⟨none, Removed.not_removed⟩)

/-- `calc_renumber_saving`: `1.0 - num_used/nVars`, with the `double`
arithmetic modelled exactly over `ℚ`. -/
def calc_renumber_saving (vars : List VarInfo) : ℚ :=
  let num_used := ((List.range vars.length).filter (liveAt vars)).length
  1 - (num_used : ℚ) / (vars.length : ℚ)

/-- Live variables at indices below `i` — the value of the counter `at`
when the first loop of `calculate_interToOuter_and_outerToInter` reaches
variable `i`. -/
def countLiveBelow (vars : List VarInfo) (i : Nat) : Nat :=
  (List.range i).countP (liveAt vars)

/-- Dead variables at indices below `i` — how far through `useless` the
second loop is when it reaches dead variable `i`. -/
def countDeadBelow (vars : List VarInfo) (i : Nat) : Nat :=
  (List.range i).countP (fun k => !liveAt vars k)

/-- `numEffectiveVars`: the number of live variables, the value returned
by `calculate_interToOuter_and_outerToInter`. -/
def numEffectiveVars (vars : List VarInfo) : Nat :=
  countLiveBelow vars vars.length

/-- The `outerToInter` map built by
`calculate_interToOuter_and_outerToInter`, in closed form: the first loop
walks variables in increasing order and gives the i-th live variable the
next fresh index (= the number of live variables before it); the second
loop then numbers the dead variables, in increasing order, starting at
`numEffectiveVars`. -/
def outerToInter (vars : List VarInfo) (i : Nat) : Nat :=
  if liveAt vars i then countLiveBelow vars i
  else numEffectiveVars vars + countDeadBelow vars i

/-- The guard sequence of `renumber_variables` deciding whether the remap
runs: nothing happens on zero variables; without `must_renumber` a saving
below 0.2 returns early; failure of `clear_gauss_matrices` or of
`clauseCleaner->remove_and_clean_all()` (abstracted as the two booleans)
returns before the remap as well. -/
def renumber_variables_performs (vars : List VarInfo)
    (must_renumber gauss_ok cleaner_ok : Bool) : Bool :=
  if vars.length = 0 then false
  else if must_renumber = false ∧ calc_renumber_saving vars < 1/5 then false
  else if gauss_ok = false then false
  else if cleaner_ok = false then false
  else true

/-!
## Learned-clause minimization effectiveness checks
(`Solver::check_recursive_minimization_effectiveness` solver.cpp:1096-1128,
`Solver::check_minimization_effectiveness` solver.cpp:1130-1171)

`double` arithmetic is modelled exactly over `ℚ`; the `uint64` counters
become `Nat` with explicit `% 2^64` where the code adds or subtracts them.
-/

/-- The repository's guarded division helper `float_div` (declared in the
utility headers outside the sources at hand): `a/b`, and `0` when the
denominator is zero. -/
def float_div (a b : ℚ) : ℚ := if b = 0 then 0 else a / b

/-- `check_recursive_minimization_effectiveness`: after a search epoch
with status `l_Undef`, when recursive minimization is on and enough
literals were sampled, compare the cost per percent of removed literals
against `200ULL*1000ULL*1000ULL` and switch `conf.doRecursiveMinim` off
when above.  Returns the new value of `conf.doRecursiveMinim`. -/
def check_recursive_minimization_effectiveness (status : Lbool)
    (doRecursiveMinim : Bool) (recMinLitRem litsRedNonMin recMinimCost : Nat) :
    Bool :=
  if status = Lbool.lundef ∧ doRecursiveMinim = true ∧
      100000 < (recMinLitRem + litsRedNonMin) % 2 ^ 64 then
    let remPercent : ℚ := float_div (recMinLitRem : ℚ) (litsRedNonMin : ℚ) * 100
    let costPerGained : ℚ := float_div (recMinimCost : ℚ) remPercent
    if 200 * 1000 * 1000 < costPerGained then false else doRecursiveMinim
  else doRecursiveMinim

/-- `check_minimization_effectiveness`: after a search epoch with status
`l_Undef`, when binary-clause extra minimization is on and more than
100000 starting literals were sampled, compute the removed percentage and
either disable the pass (below 1%), triple the binary minimization limit
(above 7%), or reset it to the configured value.  Returns the new
`conf.doMinimRedMore` and the new `more_red_minim_limit_binary_actual`. -/
def check_minimization_effectiveness (status : Lbool) (doMinimRedMore : Bool)
    (moreMinimLitsStart moreMinimLitsEnd : Nat)
    (more_red_minim_limit_binary : Nat) (actual : Nat) : Bool × Nat :=
  if status = Lbool.lundef ∧ doMinimRedMore = true ∧
      100000 < moreMinimLitsStart then
    let removed : Nat := (moreMinimLitsStart + 2 ^ 64 - moreMinimLitsEnd) % 2 ^ 64
    let remPercent : ℚ := float_div (removed : ℚ) (moreMinimLitsStart : ℚ) * 100
    if remPercent < 1 then (false, actual)
    else if 7 < remPercent then (doMinimRedMore, 3 * more_red_minim_limit_binary)
    else (doMinimRedMore, more_red_minim_limit_binary)
  else (doMinimRedMore, actual)

/-!
## The inprocessing schedule interpreter
(`Solver::execute_inprocess_strategy` solver.cpp:1792-2001)

The schedule string plus `", "` is split on commas; each token is trimmed
and lowercased (the repository's `trim` helper, declared outside the
sources at hand, strips surrounding whitespace — modelled by
`String.trim`).  The per-iteration break on conflict budget, wall-clock
timeout, interrupt flag, empty variable set or a dead solver is
abstracted as `budget`; what each recognised token's pass does to the
solver is abstracted as `handlerOk` (false means the pass left the solver
not-okay or returned `l_False`, ending the loop with `l_False`). -/

/-- A C++ `std::string`, modelled as its character sequence. -/
abbrev CStr := List Char

/-- The whitespace set of `std::isspace` in the C locale, used by the
repository's `trim` helper (declared in the utility headers outside the
sources at hand): space, `\t`, `\n`, `\v`, `\f`, `\r`. -/
def isSpaceChar (c : Char) : Bool :=
  c = ' ' ∨ c = '\t' ∨ c = '\n' ∨ c = Char.ofNat 11 ∨ c = Char.ofNat 12 ∨ c = '\r'

/-- `trim`: strip leading and trailing whitespace. -/
def trimChars (t : CStr) : CStr :=
  ((t.dropWhile isSpaceChar).reverse.dropWhile isSpaceChar).reverse

/-- `::tolower` in the C locale: lowercase the ASCII letters. -/
def asciiToLower (c : Char) : Char :=
  if 'A' ≤ c ∧ c ≤ 'Z' then Char.ofNat (c.toNat + 32) else c

/-- `token = trim(token); std::transform(..., ::tolower);`. -/
def normToken (t : CStr) : CStr := (trimChars t).map asciiToLower

/-- The tokens the `else if` chain of `execute_inprocess_strategy`
recognises by exact comparison (tokens handled via the `occ` prefix and
the empty token are classified separately, as in the chain's tail). -/
def recognized_tokens : List CStr :=
  ["scc-vrepl".data, "oracle-vivif-sparsify".data, "oracle-vivif".data,
   "oracle-sparsify".data, "backbone".data, "must-scc-vrepl".data,
   "full-probe".data, "card-find".data, "sub-impl".data, "sls".data,
   "lucky".data, "intree-probe".data, "sub-str-cls-with-bin".data,
   "sub-cls-with-bin".data, "distill-bins".data, "distill-litrem".data,
   "distill-cls".data, "clean-cls".data, "distill-cls-onlyrem".data,
   "must-distill-cls".data, "must-distill-cls-onlyrem".data, "str-impl".data,
   "cl-consolidate".data, "louvain-comms".data, "renumber".data,
   "must-renumber".data, "breakid".data, "bosphorus".data]

/-- How the `else if` chain classifies one normalised token. -/
inductive TokenClass where
  | known
  | emptyTok
  | occTok
  | unknown
deriving DecidableEq

/-- Classification of a normalised token: a recognised name, the empty
token (`"just an empty comma, ignore"`), an `occ`-prefixed token
(`token.substr(0,3) == "occ"`, accumulated for `OccSimplifier`), or an
unknown token (fatal: `exit(-1)`). -/
def classifyToken (t : CStr) : TokenClass :=
  if t ∈ recognized_tokens then .known
  else if t = [] then .emptyTok
  else if t.take 3 = "occ".data then .occTok
  else .unknown

/-- The loop of `std::getline(ss, token, ',')`: split on commas,
accumulating the current piece. -/
def splitCommas : CStr → CStr → List CStr → List CStr
  | [], cur, acc => (cur.reverse :: acc).reverse
  | c :: rest, cur, acc =>
    if c = ',' then splitCommas rest [] (cur.reverse :: acc)
    else splitCommas rest (c :: cur) acc

/-- `std::getline(ss, token, ',')` over the stream `strategy + ", "`. -/
def tokenize (strategy : CStr) : List CStr :=
  splitCommas (strategy ++ ", ".data) [] []

/-- Result of running the schedule: a fatal abort on an unknown token
(`exit(-1)`), or a normal finish (`true` for the `l_Undef` return of a
completed or budget-interrupted run, `false` for `l_False`). -/
inductive SchedResult where
  | fatalUnknown (tok : CStr)
  | finished (solver_okay : Bool)
deriving DecidableEq

/-- The token loop of `execute_inprocess_strategy`.  `k` numbers the
iterations for the `budget` / `handlerOk` oracles. -/
def runSchedule (budget handlerOk : Nat → Bool) : Nat → List CStr → SchedResult
  | _, [] => .finished true
  | k, t :: rest =>
    if !budget k then .finished true
    else
      match classifyToken (normToken t) with
      | .unknown => .fatalUnknown (normToken t)
      | _ =>
        if handlerOk k then runSchedule budget handlerOk (k + 1) rest
        else .finished false

/-- A fresh solver state: `ok`, empty formula, no eliminated variables,
occurrence-based simplification off. -/
def initState : SolverState where
  ok := true
  clauseID := 0
  unsat_cl_ID := 0
  assign := fun _ => none
  trail := []
  binCls := []
  longIrredCls := []
  longRedCls2 := []
  xorclauses := []
  perform_occur_based_simp := false
  anythingHasBeenElimed := false

/-!
# Theorems
-/

/-- C9: `set_max_confl(n)` saturates instead of wrapping: when the
running conflict count plus `n` overflows `uint64`, the conflict limit
becomes the maximum `uint64` value, and otherwise their exact sum. -/
theorem set_max_confl_saturates (c n : Nat) (hc : c < 2 ^ 64) (hn : n < 2 ^ 64) :
    set_max_confl c n = if 2 ^ 64 ≤ c + n then 2 ^ 64 - 1 else c + n := by
  simp only [set_max_confl]
  split_ifs <;> omega

theorem set_max_confl_saturates_witness :
    set_max_confl (2 ^ 63) (2 ^ 63 + 5) =
      if 2 ^ 64 ≤ 2 ^ 63 + (2 ^ 63 + 5) then 2 ^ 64 - 1 else 2 ^ 63 + (2 ^ 63 + 5) :=
  set_max_confl_saturates (2 ^ 63) (2 ^ 63 + 5) (by norm_num) (by norm_num)

/-! Helper lemmas about `markVars` (for the `XorSubsumer::subset` claim). -/

theorem getD_set_of_lt (l : List Bool) (i j : Nat) (a : Bool) (hj : j < l.length) :
    (l.set i a).getD j false = if i = j then a else l.getD j false := by
  simp only [List.getD_eq_getElem?_getD, List.getElem?_set]
  split_ifs <;> simp_all

theorem markVars_length (b : Bool) (ls : List Nat) (seen : List Bool) :
    (markVars b ls seen).length = seen.length := by
  induction ls generalizing seen with
  | nil => rfl
  | cons l t ih =>
    simp only [markVars, List.foldl_cons] at *
    rw [ih (seen.set (Lit.var l) b), List.length_set]

theorem markVars_getD (b : Bool) (ls : List Nat) (seen : List Bool) (j : Nat)
    (hj : j < seen.length) :
    (markVars b ls seen).getD j false =
      if j ∈ ls.map Lit.var then b else seen.getD j false := by
  induction ls generalizing seen with
  | nil => simp [markVars]
  | cons l t ih =>
    have hj2 : j < (seen.set (Lit.var l) b).length := by rw [List.length_set]; exact hj
    have step : markVars b (l :: t) seen = markVars b t (seen.set (Lit.var l) b) := by
      simp [markVars]
    rw [step, ih (seen.set (Lit.var l) b) hj2, getD_set_of_lt seen (Lit.var l) j b hj]
    by_cases hmem : j ∈ t.map Lit.var
    · simp [hmem]
    · by_cases hvl : Lit.var l = j
      · simp [hmem, hvl]
      · have hvl2 : ¬j = Lit.var l := fun h => hvl h.symm
        simp [hmem, hvl, hvl2]

theorem markVars_roundtrip (B : List Nat) (seen : List Bool)
    (h0 : ∀ x ∈ seen, x = false) :
    markVars false B (markVars true B seen) = seen := by
  have hlen : (markVars false B (markVars true B seen)).length = seen.length := by
    rw [markVars_length, markVars_length]
  apply List.ext_getElem hlen
  intro i h1 h2
  have hi : i < (markVars true B seen).length := by rw [markVars_length]; exact h2
  have e1 : (markVars false B (markVars true B seen)).getD i false =
      if i ∈ B.map Lit.var then false else (markVars true B seen).getD i false :=
    markVars_getD false B (markVars true B seen) i hi
  have e2 : (markVars true B seen).getD i false =
      if i ∈ B.map Lit.var then true else seen.getD i false :=
    markVars_getD true B seen i h2
  have hseen : seen.getD i false = false := by
    rw [List.getD_eq_getElem seen false h2]
    exact h0 _ (List.getElem_mem h2)
  have hfinal : (markVars false B (markVars true B seen)).getD i false = false := by
    rw [e1, e2, hseen]
    split_ifs <;> rfl
  have g1 : (markVars false B (markVars true B seen))[i] =
      (markVars false B (markVars true B seen)).getD i false :=
    (List.getD_eq_getElem _ false h1).symm
  have g2 : seen[i] = seen.getD i false := (List.getD_eq_getElem _ false h2).symm
  rw [g1, g2, hfinal, hseen]

/-- C10: `XorSubsumer::subset(A, B)`, called with `seen_tmp` all zero and
large enough to index every variable of `A` and `B`, returns true iff
every variable of `A` also occurs in `B`, and leaves `seen_tmp` all zero
(indeed unchanged) on every return path. -/
theorem xsubset_spec (A B : List Nat) (seen : List Bool)
    (h0 : ∀ x ∈ seen, x = false)
    (hA : ∀ l ∈ A, Lit.var l < seen.length)
    (hB : ∀ l ∈ B, Lit.var l < seen.length) :
    ((xsubset A B seen).1 = true ↔ ∀ l ∈ A, ∃ m ∈ B, Lit.var l = Lit.var m)
    ∧ (xsubset A B seen).2 = seen := by
  constructor
  · simp only [xsubset, List.all_eq_true]
    constructor
    · intro h l hl
      have := h l hl
      rw [markVars_getD true B seen (Lit.var l) (hA l hl)] at this
      by_cases hmem : Lit.var l ∈ B.map Lit.var
      · obtain ⟨m, hm, hvm⟩ := List.mem_map.mp hmem
        exact ⟨m, hm, hvm.symm⟩
      · rw [if_neg hmem] at this
        have hseen : seen.getD (Lit.var l) false = false := by
          rw [List.getD_eq_getElem seen false (hA l hl)]
          exact h0 _ (List.getElem_mem (hA l hl))
        rw [hseen] at this
        exact absurd this (by simp)
    · intro h l hl
      rw [markVars_getD true B seen (Lit.var l) (hA l hl)]
      obtain ⟨m, hm, hvm⟩ := h l hl
      have hmem : Lit.var l ∈ B.map Lit.var := List.mem_map.mpr ⟨m, hm, hvm.symm⟩
      rw [if_pos hmem]
  · exact markVars_roundtrip B seen h0

theorem xsubset_spec_witness :
    ((xsubset [2] [3] [false, false]).1 = true ↔
      ∀ l ∈ ([2] : List Nat), ∃ m ∈ ([3] : List Nat), Lit.var l = Lit.var m)
    ∧ (xsubset [2] [3] [false, false]).2 = [false, false] :=
  xsubset_spec [2] [3] [false, false] (by decide) (by decide) (by decide)

/-- C7: with occurrence-based simplification enabled and something already
eliminated, `add_clause_outside` on a live solver hits the fatal gate of
`add_clause_outer` and aborts (`std::exit(-1)`) instead of adding the
clause or returning an error value. -/
theorem add_clause_after_elimination_fatal (prop : SolverState → SolverState)
    (s : SolverState) (ps : List Nat) (red : Bool)
    (hok : s.ok = true)
    (hconf : s.perform_occur_based_simp = true)
    (helim : s.anythingHasBeenElimed = true) :
    add_clause_outside prop s ps red = AddOutcome.fatalError := by
  simp [add_clause_outside, add_clause_outer, hok, hconf, helim]

theorem add_clause_after_elimination_fatal_witness :
    add_clause_outside id
      { initState with
          perform_occur_based_simp := true
          anythingHasBeenElimed := true } [0] false = AddOutcome.fatalError :=
  add_clause_after_elimination_fatal id _ [0] false rfl rfl rfl

/-- Stepping the schedule over a prefix of tokens none of which is
unknown, with the budget checks passing and every pass leaving the solver
okay, reaches the rest of the token list. -/
theorem runSchedule_append (budget handlerOk : Nat → Bool)
    (hb : ∀ k, budget k = true) (hh : ∀ k, handlerOk k = true)
    (t : CStr) (rest : List CStr)
    (ht : classifyToken (normToken t) = TokenClass.unknown) :
    ∀ (pre : List CStr) (k : Nat),
      (∀ p ∈ pre, classifyToken (normToken p) ≠ TokenClass.unknown) →
      runSchedule budget handlerOk k (pre ++ t :: rest) =
        SchedResult.fatalUnknown (normToken t) := by
  intro pre
  induction pre with
  | nil =>
    intro k _
    simp [runSchedule, hb k, ht]
  | cons p pre' ih =>
    intro k hpre
    have hp := hpre p (List.mem_cons_self p pre')
    have hrec := ih (k + 1) (fun q hq => hpre q (List.mem_cons_of_mem p hq))
    cases hcl : classifyToken (normToken p) <;>
      simp_all [runSchedule, hb k, hh k]

/-- C8: the schedule interpreter, given a schedule string whose token
list contains a token that normalises to something unrecognised (not a
known name, not empty, not `occ`-prefixed), aborts with `exit(-1)` when
it reaches that token — here: with the per-token budget checks passing
and every earlier pass leaving the solver okay.  Whitespace-only tokens
(in particular the empty token between two commas) are classified as
ignorable, not fatal. -/
theorem unknown_schedule_token_fatal (budget handlerOk : Nat → Bool)
    (strategy : CStr) (pre : List CStr) (t : CStr) (rest : List CStr)
    (hb : ∀ k, budget k = true) (hh : ∀ k, handlerOk k = true)
    (htok : tokenize strategy = pre ++ t :: rest)
    (hpre : ∀ p ∈ pre, classifyToken (normToken p) ≠ TokenClass.unknown)
    (ht : classifyToken (normToken t) = TokenClass.unknown) :
    runSchedule budget handlerOk 0 (tokenize strategy) =
      SchedResult.fatalUnknown (normToken t)
    ∧ (∀ u : CStr, (∀ c ∈ u, isSpaceChar c = true) →
        classifyToken (normToken u) = TokenClass.emptyTok) := by
  constructor
  · rw [htok]
    exact runSchedule_append budget handlerOk hb hh t rest ht pre 0 hpre
  · intro u hu
    have hdrop : u.dropWhile isSpaceChar = [] := List.dropWhile_eq_nil_iff.mpr hu
    have htrim : trimChars u = [] := by
      simp [trimChars, hdrop]
    simp [normToken, htrim]
    decide

theorem unknown_schedule_token_fatal_witness :
    runSchedule (fun _ => true) (fun _ => true) 0
        (tokenize "scc-vrepl,,bogus".data) =
      SchedResult.fatalUnknown (normToken "bogus".data)
    ∧ (∀ u : CStr, (∀ c ∈ u, isSpaceChar c = true) →
        classifyToken (normToken u) = TokenClass.emptyTok) :=
  unknown_schedule_token_fatal (fun _ => true) (fun _ => true)
    "scc-vrepl,,bogus".data ["scc-vrepl".data, "".data] "bogus".data [" ".data]
    (fun _ => rfl) (fun _ => rfl) (by decide) (by decide) (by decide)

/-- C5 counterexample: with status `l_Undef`, recursive minimization on,
`recMinLitRem = litsRedNonMin = 100000` (so `remPercent = 100`) and
`recMinimCost = 10^11`, the cost per percent of removed literals is
`10^9`, which does not exceed the claimed threshold of `200*10^9` raw
cost units — yet the code disables recursive minimization, because its
threshold is `200*10^6` raw cost units (200000 kilo-cost). -/
theorem recursive_minimization_claimed_threshold_false :
    check_recursive_minimization_effectiveness Lbool.lundef true
        100000 100000 (10 ^ 11) = false
    ∧ float_div ((10 ^ 11 : Nat) : ℚ)
        (float_div ((100000 : Nat) : ℚ) ((100000 : Nat) : ℚ) * 100) ≤ 200 * 10 ^ 9 := by
  constructor
  · simp only [check_recursive_minimization_effectiveness, float_div]
    norm_num
  · simp only [float_div]
    norm_num

/-- C5 (amended): after a search epoch, recursive minimization is turned
off exactly when it was already off or the sampling gate passes (status
`l_Undef`, pass enabled, removed plus non-minimized literal counts above
100000) and the accumulated cost per percent of removed literals exceeds
`200*10^6` raw cost units, i.e. 200000 kilo-cost; and once off it never
comes back on. -/
theorem recursive_minimization_disable_spec (status : Lbool) (doRec : Bool)
    (recMinLitRem litsRedNonMin recMinimCost : Nat)
    (hsum : recMinLitRem + litsRedNonMin < 2 ^ 64) :
    (check_recursive_minimization_effectiveness status doRec
        recMinLitRem litsRedNonMin recMinimCost = false
      ↔ doRec = false
        ∨ (status = Lbool.lundef ∧ 100000 < recMinLitRem + litsRedNonMin
            ∧ 200 * 1000 * 1000 <
                float_div (recMinimCost : ℚ)
                  (float_div (recMinLitRem : ℚ) (litsRedNonMin : ℚ) * 100)))
    ∧ (doRec = false →
        check_recursive_minimization_effectiveness status doRec
          recMinLitRem litsRedNonMin recMinimCost = false) := by
  simp only [check_recursive_minimization_effectiveness,
    Nat.mod_eq_of_lt hsum]
  constructor
  · split_ifs with h1 h2 <;> cases doRec <;> simp_all
  · intro hd
    split_ifs <;> simp_all

theorem recursive_minimization_disable_spec_witness :
    (check_recursive_minimization_effectiveness Lbool.lundef true
        100000 100000 (10 ^ 11) = false
      ↔ (true : Bool) = false
        ∨ (Lbool.lundef = Lbool.lundef ∧ 100000 < 100000 + 100000
            ∧ 200 * 1000 * 1000 <
                float_div ((10 ^ 11 : Nat) : ℚ)
                  (float_div ((100000 : Nat) : ℚ) ((100000 : Nat) : ℚ) * 100)))
    ∧ ((true : Bool) = false →
        check_recursive_minimization_effectiveness Lbool.lundef true
          100000 100000 (10 ^ 11) = false) :=
  recursive_minimization_disable_spec Lbool.lundef true 100000 100000 (10 ^ 11)
    (by norm_num)

/-- C6: after a search epoch with status `l_Undef`, with binary-clause
extra minimization enabled and more than 100000 starting literals
sampled, the binary minimization limit is set to three times the
configured value when the removed fraction exceeds 7%, the pass is
disabled (limit untouched) when the fraction is below 1%, and the limit
is reset to the configured value otherwise. -/
theorem minimization_effectiveness_spec (status : Lbool) (doMin : Bool)
    (start endl norm actual : Nat)
    (hstat : status = Lbool.lundef) (hdo : doMin = true)
    (hstart : 100000 < start) (hle : endl ≤ start) (hlt : start < 2 ^ 64) :
    (7 / 100 < (((start - endl : Nat) : ℚ) / (start : ℚ)) →
      check_minimization_effectiveness status doMin start endl norm actual =
        (true, 3 * norm))
    ∧ ((((start - endl : Nat) : ℚ) / (start : ℚ)) < 1 / 100 →
      check_minimization_effectiveness status doMin start endl norm actual =
        (false, actual))
    ∧ (1 / 100 ≤ (((start - endl : Nat) : ℚ) / (start : ℚ)) →
        (((start - endl : Nat) : ℚ) / (start : ℚ)) ≤ 7 / 100 →
      check_minimization_effectiveness status doMin start endl norm actual =
        (true, norm)) := by
  subst hstat
  subst hdo
  have h0 : 0 < start := by omega
  have hq : (0 : ℚ) < (start : ℚ) := by exact_mod_cast h0
  have hne : ((start : ℚ)) ≠ 0 := ne_of_gt hq
  have hsub : (start + 2 ^ 64 - endl) % 2 ^ 64 = start - endl := by omega
  have key : check_minimization_effectiveness Lbool.lundef true start endl norm actual =
      (if ((start - endl : Nat) : ℚ) / (start : ℚ) * 100 < 1 then (false, actual)
       else if 7 < ((start - endl : Nat) : ℚ) / (start : ℚ) * 100 then (true, 3 * norm)
       else (true, norm)) := by
    simp only [check_minimization_effectiveness, hsub, float_div]
    rw [if_pos ⟨trivial, trivial, hstart⟩, if_neg hne]
  refine ⟨?_, ?_, ?_⟩
  · intro h
    rw [key, if_neg (by linarith), if_pos (by linarith)]
  · intro h
    rw [key, if_pos (by linarith)]
  · intro ha hb
    rw [key, if_neg (by linarith), if_neg (by linarith)]

theorem minimization_effectiveness_spec_witness :
    check_minimization_effectiveness Lbool.lundef true 200000 100000 7 9 =
      (true, 3 * 7) :=
  (minimization_effectiveness_spec Lbool.lundef true 200000 100000 7 9
      rfl rfl (by norm_num) (by norm_num) (by norm_num)).1 (by norm_num)

/-! Counting helpers for the renumbering claim. -/

theorem countP_range_le (p : Nat → Bool) {i j : Nat} (h : i ≤ j) :
    (List.range i).countP p ≤ (List.range j).countP p := by
  induction j, h using Nat.le_induction with
  | base => exact le_refl _
  | succ n hn ih =>
    rw [List.range_succ, List.countP_append]
    omega

theorem countP_range_lt (p : Nat → Bool) {i j : Nat} (h : i < j) (hp : p i = true) :
    (List.range i).countP p < (List.range j).countP p := by
  have h1 : (List.range (i + 1)).countP p = (List.range i).countP p + 1 := by
    rw [List.range_succ, List.countP_append]
    simp [List.countP_cons, hp]
  have h2 := countP_range_le p (show i + 1 ≤ j from h)
  omega

theorem countP_range_add_not (p : Nat → Bool) (n : Nat) :
    (List.range n).countP p + (List.range n).countP (fun k => !p k) = n := by
  induction n with
  | zero => rfl
  | succ m ih =>
    rw [List.range_succ, List.countP_append, List.countP_append]
    by_cases hp : p m <;> simp [List.countP_cons, hp] <;> omega

/-- C4: when `renumber_variables` goes through with its remap, either it
was forced or at least 20% of the internal variables are dead (set at
level 0, eliminated, or replaced); and the computed `outerToInter` map
sends every live variable into `[0, numEffectiveVars)` preserving the
relative order of live variables, while every dead variable lands in
`[numEffectiveVars, nVars)` after all live ones. -/
theorem renumber_spec (vars : List VarInfo) (must_renumber gauss_ok cleaner_ok : Bool)
    (hperf : renumber_variables_performs vars must_renumber gauss_ok cleaner_ok = true) :
    (must_renumber = true
      ∨ vars.length ≤ 5 * (List.range vars.length).countP (fun k => !liveAt vars k))
    ∧ (∀ i, i < vars.length → liveAt vars i = true →
        outerToInter vars i < numEffectiveVars vars)
    ∧ (∀ i j, i < j → j < vars.length → liveAt vars i = true → liveAt vars j = true →
        outerToInter vars i < outerToInter vars j)
    ∧ (∀ i, i < vars.length → liveAt vars i = false →
        numEffectiveVars vars ≤ outerToInter vars i ∧ outerToInter vars i < vars.length) := by
  have hn0 : vars.length ≠ 0 := by
    intro h
    simp [renumber_variables_performs, h] at hperf
  refine ⟨?_, ?_, ?_, ?_⟩
  · by_cases hmust : must_renumber = true
    · exact Or.inl hmust
    · right
      have hm : must_renumber = false := Bool.eq_false_iff.mpr hmust
      have hsav : ¬(calc_renumber_saving vars < 1 / 5) := by
        intro hlt
        simp [renumber_variables_performs, hm, hn0] at hperf
        exact absurd hperf.1 (by linarith)
      have hsaving : calc_renumber_saving vars =
          1 - (((List.range vars.length).countP (liveAt vars) : ℚ)) / (vars.length : ℚ) := by
        simp [calc_renumber_saving, List.countP_eq_length_filter]
      rw [hsaving] at hsav
      have hsum := countP_range_add_not (liveAt vars) vars.length
      have hq : (0 : ℚ) < (vars.length : ℚ) := by
        exact_mod_cast Nat.pos_of_ne_zero hn0
      have h45 : (((List.range vars.length).countP (liveAt vars) : ℚ)) / (vars.length : ℚ)
          ≤ 4 / 5 := by
        have := not_lt.mp hsav
        linarith
      have h5 : (5 * ((List.range vars.length).countP (liveAt vars)) : ℚ) ≤
          4 * (vars.length : ℚ) := by
        rw [div_le_iff₀ hq] at h45
        linarith
      have h5n : 5 * (List.range vars.length).countP (liveAt vars) ≤ 4 * vars.length := by
        exact_mod_cast h5
      omega
  · intro i hi hlive
    simp only [outerToInter, hlive, if_pos, countLiveBelow, numEffectiveVars]
    exact countP_range_lt _ hi hlive
  · intro i j hij hj hli hlj
    simp only [outerToInter, hli, hlj, if_pos, countLiveBelow]
    exact countP_range_lt _ hij hli
  · intro i hi hdead
    simp only [outerToInter, hdead, Bool.false_eq_true, if_false, countDeadBelow,
      countLiveBelow, numEffectiveVars]
    constructor
    · exact Nat.le_add_right _ _
    · have hlt := countP_range_lt (fun k => !liveAt vars k) hi (by simp [hdead])
      have hsum := countP_range_add_not (liveAt vars) vars.length
      omega

theorem renumber_spec_witness :
    ((false = true)
      ∨ ([(⟨some true, Removed.not_removed⟩ : VarInfo),
          ⟨none, Removed.not_removed⟩] : List VarInfo).length ≤
          5 * (List.range ([(⟨some true, Removed.not_removed⟩ : VarInfo),
            ⟨none, Removed.not_removed⟩] : List VarInfo).length).countP
              (fun k => !liveAt [⟨some true, Removed.not_removed⟩,
                ⟨none, Removed.not_removed⟩] k))
    ∧ (∀ i, i < ([(⟨some true, Removed.not_removed⟩ : VarInfo),
          ⟨none, Removed.not_removed⟩] : List VarInfo).length →
        liveAt [⟨some true, Removed.not_removed⟩, ⟨none, Removed.not_removed⟩] i = true →
        outerToInter [⟨some true, Removed.not_removed⟩, ⟨none, Removed.not_removed⟩] i <
          numEffectiveVars [⟨some true, Removed.not_removed⟩, ⟨none, Removed.not_removed⟩])
    ∧ (∀ i j, i < j →
        j < ([(⟨some true, Removed.not_removed⟩ : VarInfo),
          ⟨none, Removed.not_removed⟩] : List VarInfo).length →
        liveAt [⟨some true, Removed.not_removed⟩, ⟨none, Removed.not_removed⟩] i = true →
        liveAt [⟨some true, Removed.not_removed⟩, ⟨none, Removed.not_removed⟩] j = true →
        outerToInter [⟨some true, Removed.not_removed⟩, ⟨none, Removed.not_removed⟩] i <
          outerToInter [⟨some true, Removed.not_removed⟩, ⟨none, Removed.not_removed⟩] j)
    ∧ (∀ i, i < ([(⟨some true, Removed.not_removed⟩ : VarInfo),
          ⟨none, Removed.not_removed⟩] : List VarInfo).length →
        liveAt [⟨some true, Removed.not_removed⟩, ⟨none, Removed.not_removed⟩] i = false →
        numEffectiveVars [⟨some true, Removed.not_removed⟩, ⟨none, Removed.not_removed⟩] ≤
          outerToInter [⟨some true, Removed.not_removed⟩, ⟨none, Removed.not_removed⟩] i
        ∧ outerToInter [⟨some true, Removed.not_removed⟩, ⟨none, Removed.not_removed⟩] i <
            ([(⟨some true, Removed.not_removed⟩ : VarInfo),
              ⟨none, Removed.not_removed⟩] : List VarInfo).length) :=
  renumber_spec [⟨some true, Removed.not_removed⟩, ⟨none, Removed.not_removed⟩]
    false true true
    (by
      have hfil : List.filter
          (liveAt [⟨some true, Removed.not_removed⟩, ⟨none, Removed.not_removed⟩])
          (List.range 2) = [1] := by decide
      norm_num [renumber_variables_performs, calc_renumber_saving, hfil])

/-! Literal encoding facts. -/

theorem var_double (v : Nat) : Lit.var (2 * v) = v := by
  simp only [Lit.var]
  omega

theorem var_double_succ (v : Nat) : Lit.var (2 * v + 1) = v := by
  simp only [Lit.var]
  omega

theorem neg_double (v : Nat) : Lit.neg (2 * v) = 2 * v + 1 := by
  simp only [Lit.neg]
  split_ifs with h
  · omega
  · rfl

theorem neg_double_succ (v : Nat) : Lit.neg (2 * v + 1) = 2 * v := by
  simp only [Lit.neg]
  split_ifs with h
  · omega
  · omega

theorem lit_split (l : Nat) : l = 2 * Lit.var l ∨ l = 2 * Lit.var l + 1 := by
  simp only [Lit.var]
  omega

theorem litValue_double (a : Assignment) (v : Nat) :
    litValue a (2 * v) = a v := by
  have h1 : Lit.sign (2 * v) = false := by
    have : (2 * v) % 2 = 0 := by omega
    simp [Lit.sign, this]
  rw [litValue, var_double, h1]
  cases a v <;> simp

theorem litValue_double_succ (a : Assignment) (v : Nat) :
    litValue a (2 * v + 1) = (a v).map (fun b => !b) := by
  have h1 : Lit.sign (2 * v + 1) = true := by
    have : (2 * v + 1) % 2 = 1 := by omega
    simp [Lit.sign, this]
  rw [litValue, var_double_succ, h1]
  cases a v <;> simp

/-! The cleaning loop returns `false` on a clause with a true literal. -/

theorem sccGo_none_of_true (a : Assignment) :
    ∀ (xs : List Nat) (p : Option Nat) (acc : List Nat),
      (∃ l ∈ xs, litValue a l = some true) → sccGo a p acc xs = none := by
  intro xs
  induction xs with
  | nil =>
    rintro p acc ⟨l, hl, _⟩
    cases hl
  | cons h t ih =>
    rintro p acc ⟨l, hl, hv⟩
    by_cases h1 : litValue a h = some true
    · simp [sccGo, h1]
    · have hl' : l ∈ t := by
        rcases List.mem_cons.mp hl with rfl | h2
        · exact absurd hv h1
        · exact h2
      by_cases h2 : p.map Lit.neg = some h
      · simp [sccGo, h1, h2]
      · by_cases h3 : litValue a h ≠ some false ∧ some h ≠ p
        · simp only [sccGo, if_neg h1, if_neg h2, if_pos h3]
          exact ih _ _ ⟨l, hl', hv⟩
        · simp only [sccGo, if_neg h1, if_neg h2, if_neg h3]
          exact ih _ _ ⟨l, hl', hv⟩

/-- The cleaning loop returns `false` on a tautology: if the two
literals of variable `v` (which is unassigned) both occur in the sorted
suffix, or the even one is the previously kept literal and the odd one
still occurs, the run ends in `none`. -/
theorem sccGo_none_taut (a : Assignment) (v : Nat) (hv : a v = none) :
    ∀ (xs : List Nat) (p : Option Nat) (acc : List Nat),
      List.Sorted (· ≤ ·) xs →
      ((2 * v ∈ xs ∧ 2 * v + 1 ∈ xs) ∨ (p = some (2 * v) ∧ 2 * v + 1 ∈ xs)) →
      (∀ p', p = some p' → ∀ l ∈ xs, p' ≤ l) →
      sccGo a p acc xs = none := by
  intro xs
  induction xs with
  | nil =>
    rintro p acc _ (⟨h1, _⟩ | ⟨_, h1⟩) _ <;> cases h1
  | cons h t ih =>
    rintro p acc hsort hcase hinv
    have hsort' : List.Sorted (· ≤ ·) t := hsort.of_cons
    have hhle : ∀ l ∈ t, h ≤ l := fun l hl => (List.sorted_cons.mp hsort).1 l hl
    have hve : litValue a (2 * v) = none := by rw [litValue_double, hv]
    have hvo : litValue a (2 * v + 1) = none := by rw [litValue_double_succ, hv]; rfl
    by_cases h1 : litValue a h = some true
    · simp [sccGo, h1]
    · by_cases h2 : p.map Lit.neg = some h
      · simp [sccGo, h1, h2]
      · rcases hcase with ⟨hev, hod⟩ | ⟨hp, hod⟩
        · have hh2v : h ≤ 2 * v := by
            rcases List.mem_cons.mp hev with heq | hev'
            · omega
            · exact hhle _ hev'
          have hodt : 2 * v + 1 ∈ t := by
            rcases List.mem_cons.mp hod with heq | hod'
            · omega
            · exact hod'
          by_cases hh : h = 2 * v
          · subst hh
            by_cases h3 : litValue a (2 * v) ≠ some false ∧ some (2 * v) ≠ p
            · simp only [sccGo, if_neg h1, if_neg h2, if_pos h3]
              refine ih (some (2 * v)) _ hsort' (Or.inr ⟨rfl, hodt⟩) ?_
              intro p' hp' l hl
              injection hp' with hp'
              subst hp'
              exact hhle l hl
            · have hA : litValue a (2 * v) ≠ some false := by rw [hve]; simp
              have hpeq : p = some (2 * v) := by
                by_contra hne
                exact h3 ⟨hA, fun hc => hne hc.symm⟩
              simp only [sccGo, if_neg h1, if_neg h2, if_neg h3]
              refine ih p _ hsort' (Or.inr ⟨hpeq, hodt⟩) ?_
              intro p' hp' l hl
              rw [hpeq] at hp'
              injection hp' with hp'
              subst hp'
              exact hhle l hl
          · have hev' : 2 * v ∈ t := by
              rcases List.mem_cons.mp hev with heq | h'
              · exact absurd heq.symm hh
              · exact h'
            by_cases h3 : litValue a h ≠ some false ∧ some h ≠ p
            · simp only [sccGo, if_neg h1, if_neg h2, if_pos h3]
              refine ih (some h) _ hsort' (Or.inl ⟨hev', hodt⟩) ?_
              intro p' hp' l hl
              injection hp' with hp'
              subst hp'
              exact hhle l hl
            · simp only [sccGo, if_neg h1, if_neg h2, if_neg h3]
              refine ih p _ hsort' (Or.inl ⟨hev', hodt⟩) ?_
              intro p' hp' l hl
              exact hinv p' hp' l (List.mem_cons_of_mem h hl)
        · have hp2v : 2 * v ≤ h := hinv _ hp h (List.mem_cons_self h t)
          by_cases hhb : h = 2 * v + 1
          · exfalso
            apply h2
            rw [hp, hhb]
            simp only [Option.map_some']
            rw [neg_double]
          · have hodt : 2 * v + 1 ∈ t := by
              rcases List.mem_cons.mp hod with heq | hod'
              · exact absurd heq.symm hhb
              · exact hod'
            have hle1 : h ≤ 2 * v + 1 := hhle _ hodt
            have hh : h = 2 * v := by omega
            subst hh
            have h3 : ¬(litValue a (2 * v) ≠ some false ∧ some (2 * v) ≠ p) := by
              rw [hp]
              simp
            simp only [sccGo, if_neg h1, if_neg h2, if_neg h3]
            refine ih p _ hsort' (Or.inr ⟨hp, hodt⟩) ?_
            intro p' hp' l hl
            rw [hp] at hp'
            injection hp' with hp'
            subst hp'
            exact hhle l hl

/-- On a clause with no true literal and no tautology pair the cleaning
loop completes and returns `true`. -/
theorem sccGo_some (a : Assignment) :
    ∀ (xs : List Nat) (p : Option Nat) (acc : List Nat),
      (∀ l ∈ xs, litValue a l ≠ some true) →
      (∀ l ∈ xs, Lit.neg l ∉ xs) →
      (∀ p', p = some p' → Lit.neg p' ∉ xs) →
      ∃ q, sccGo a p acc xs = some q := by
  intro xs
  induction xs with
  | nil =>
    intro p acc _ _ _
    exact ⟨acc.reverse, rfl⟩
  | cons h t ih =>
    intro p acc htrue htaut hpn
    have h1 : ¬(litValue a h = some true) := htrue h (List.mem_cons_self h t)
    have h2 : ¬(p.map Lit.neg = some h) := by
      intro hc
      rcases Option.map_eq_some'.mp hc with ⟨p', hp', hneg⟩
      exact hpn p' hp' (hneg ▸ List.mem_cons_self h t)
    have htrue' : ∀ l ∈ t, litValue a l ≠ some true :=
      fun l hl => htrue l (List.mem_cons_of_mem h hl)
    have htaut' : ∀ l ∈ t, Lit.neg l ∉ t := fun l hl hc =>
      htaut l (List.mem_cons_of_mem h hl) (List.mem_cons_of_mem h hc)
    by_cases h3 : litValue a h ≠ some false ∧ some h ≠ p
    · simp only [sccGo, if_neg h1, if_neg h2, if_pos h3]
      refine ih (some h) (h :: acc) htrue' htaut' ?_
      intro p' hp' hc
      injection hp' with hp'
      subst hp'
      exact htaut h (List.mem_cons_self h t) (List.mem_cons_of_mem h hc)
    · simp only [sccGo, if_neg h1, if_neg h2, if_neg h3]
      refine ih p acc htrue' htaut' ?_
      intro p' hp' hc
      exact hpn p' hp' (List.mem_cons_of_mem h hc)

/-- Membership in the cleaning loop's output: the kept literals are the
accumulator plus the input literals that are not false (duplicates do not
change membership). -/
theorem sccGo_mem (a : Assignment) :
    ∀ (xs : List Nat) (p : Option Nat) (acc q : List Nat),
      (∀ p', p = some p' → p' ∈ acc) →
      sccGo a p acc xs = some q →
      ∀ m, m ∈ q ↔ m ∈ acc ∨ (m ∈ xs ∧ litValue a m ≠ some false) := by
  intro xs
  induction xs with
  | nil =>
    intro p acc q _ hq m
    simp only [sccGo] at hq
    injection hq with hq
    subst hq
    simp
  | cons h t ih =>
    intro p acc q hinv hq m
    by_cases h1 : litValue a h = some true
    · simp only [sccGo, if_pos h1] at hq
      cases hq
    · by_cases h2 : p.map Lit.neg = some h
      · simp only [sccGo, if_neg h1, if_pos h2] at hq
        cases hq
      · by_cases h3 : litValue a h ≠ some false ∧ some h ≠ p
        · simp only [sccGo, if_neg h1, if_neg h2, if_pos h3] at hq
          have hinv' : ∀ p', some h = some p' → p' ∈ h :: acc := by
            intro p' hp'
            injection hp' with hp'
            subst hp'
            exact List.mem_cons_self h acc
          have base := ih (some h) (h :: acc) q hinv' hq m
          rw [base]
          simp only [List.mem_cons]
          by_cases hm : m = h
          · subst hm
            simp [h3.1]
          · constructor
            · rintro ((rfl | hacc) | ⟨ht', hval⟩)
              · exact absurd rfl hm
              · exact Or.inl hacc
              · exact Or.inr ⟨Or.inr ht', hval⟩
            · rintro (hacc | ⟨(rfl | ht'), hval⟩)
              · exact Or.inl (Or.inr hacc)
              · exact absurd rfl hm
              · exact Or.inr ⟨ht', hval⟩
        · simp only [sccGo, if_neg h1, if_neg h2, if_neg h3] at hq
          have base := ih p acc q hinv hq m
          rw [base]
          simp only [List.mem_cons]
          rcases not_and_or.mp h3 with hfalse | hdup
          · rw [not_not] at hfalse
            constructor
            · rintro (hacc | ⟨ht', hval⟩)
              · exact Or.inl hacc
              · exact Or.inr ⟨Or.inr ht', hval⟩
            · rintro (hacc | ⟨(rfl | ht'), hval⟩)
              · exact Or.inl hacc
              · exact absurd hfalse hval
              · exact Or.inr ⟨ht', hval⟩
          · rw [not_not] at hdup
            have hh : h ∈ acc := hinv h hdup.symm
            constructor
            · rintro (hacc | ⟨ht', hval⟩)
              · exact Or.inl hacc
              · exact Or.inr ⟨Or.inr ht', hval⟩
            · rintro (hacc | ⟨(rfl | ht'), hval⟩)
              · exact Or.inl hacc
              · exact Or.inl hh
              · exact Or.inr ⟨ht', hval⟩

/-- The cleaning loop's output has no duplicate literal: the kept
literals strictly increase along the sorted input. -/
theorem sccGo_nodup (a : Assignment) :
    ∀ (xs : List Nat) (p : Option Nat) (acc q : List Nat),
      List.Sorted (· ≤ ·) xs →
      acc.Pairwise (· > ·) →
      (∀ p', p = some p' → ∀ x ∈ acc, x ≤ p') →
      (∀ p', p = some p' → ∀ l ∈ xs, p' ≤ l) →
      (p = none → acc = []) →
      sccGo a p acc xs = some q →
      q.Nodup := by
  intro xs
  induction xs with
  | nil =>
    intro p acc q _ hacc _ _ _ hq
    simp only [sccGo] at hq
    injection hq with hq
    subst hq
    have h2 : acc.Pairwise (fun x y => y ≠ x) :=
      hacc.imp (fun hxy => Nat.ne_of_lt hxy)
    exact List.pairwise_reverse.mpr h2
  | cons h t ih =>
    intro p acc q hsort hacc hple hpxs hnone hq
    have hsort' : List.Sorted (· ≤ ·) t := hsort.of_cons
    have hhle : ∀ l ∈ t, h ≤ l := fun l hl => (List.sorted_cons.mp hsort).1 l hl
    by_cases h1 : litValue a h = some true
    · simp only [sccGo, if_pos h1] at hq
      cases hq
    · by_cases h2 : p.map Lit.neg = some h
      · simp only [sccGo, if_neg h1, if_pos h2] at hq
        cases hq
      · by_cases h3 : litValue a h ≠ some false ∧ some h ≠ p
        · simp only [sccGo, if_neg h1, if_neg h2, if_pos h3] at hq
          have hgt : ∀ x ∈ acc, x < h := by
            intro x hx
            cases p with
            | none => rw [hnone rfl] at hx; cases hx
            | some p' =>
              have hxp : x ≤ p' := hple p' rfl x hx
              have hph : p' ≤ h := hpxs p' rfl h (List.mem_cons_self h t)
              have hne : h ≠ p' := by
                intro hc
                exact h3.2 (by rw [hc])
              omega
          refine ih (some h) (h :: acc) q hsort' ?_ ?_ ?_ ?_ hq
          · exact List.pairwise_cons.mpr ⟨hgt, hacc⟩
          · intro p' hp' x hx
            injection hp' with hp'
            subst hp'
            rcases List.mem_cons.mp hx with rfl | hx'
            · exact le_refl _
            · exact le_of_lt (hgt x hx')
          · intro p' hp' l hl
            injection hp' with hp'
            subst hp'
            exact hhle l hl
          · intro hc
            cases hc
        · simp only [sccGo, if_neg h1, if_neg h2, if_neg h3] at hq
          refine ih p acc q hsort' hacc hple ?_ hnone hq
          intro p' hp' l hl
          exact hpxs p' hp' l (List.mem_cons_of_mem h hl)

/-- C3: a clause given to the clause-adding path at decision level 0 is
discarded by `sort_and_clean_clause` exactly when it has a literal true
at level 0 or contains a literal together with its negation; otherwise
the cleaning succeeds and keeps precisely the literals that are not false
at level 0, without duplicates.  A discarded clause leaves
`add_clause_int` with the state unchanged and nothing stored; a cleaned
long clause is handed back (and linked into the clause database) exactly
as cleaned. -/
theorem sort_and_clean_spec (a : Assignment) (ps : List Nat) :
    (((∃ l ∈ ps, litValue a l = some true) ∨ (∃ l ∈ ps, Lit.neg l ∈ ps)) →
        sort_and_clean_clause a ps = none)
    ∧ (¬(∃ l ∈ ps, litValue a l = some true) → ¬(∃ l ∈ ps, Lit.neg l ∈ ps) →
        ∃ q, sort_and_clean_clause a ps = some q ∧ q.Nodup ∧
          ∀ m, m ∈ q ↔ m ∈ ps ∧ litValue a m ≠ some false)
    ∧ (∀ prop remove_frat s red, sort_and_clean_clause (SolverState.assign s) ps = none →
        add_clause_int prop remove_frat s ps red = (s, none))
    ∧ (∀ prop remove_frat s red q, sort_and_clean_clause (SolverState.assign s) ps = some q →
        3 ≤ q.length → (add_clause_int prop remove_frat s ps red).2 = some q) := by
  have hperm := List.perm_insertionSort (· ≤ ·) ps
  have hsort := List.sorted_insertionSort (· ≤ ·) ps
  have hmem : ∀ x : Nat, x ∈ ps.insertionSort (· ≤ ·) ↔ x ∈ ps :=
    fun x => hperm.mem_iff
  refine ⟨?_, ?_, ?_, ?_⟩
  · rintro (⟨l, hl, hv⟩ | ⟨l, hl, hneg⟩)
    · exact sccGo_none_of_true a _ none [] ⟨l, (hmem l).mpr hl, hv⟩
    · by_cases hT : ∃ l' ∈ ps, litValue a l' = some true
      · obtain ⟨l', hl', hv'⟩ := hT
        exact sccGo_none_of_true a _ none [] ⟨l', (hmem l').mpr hl', hv'⟩
      · push_neg at hT
        have hpair : 2 * Lit.var l ∈ ps ∧ 2 * Lit.var l + 1 ∈ ps := by
          rcases lit_split l with hsp | hsp
          · have hnl : Lit.neg l = 2 * Lit.var l + 1 := by
              conv in Lit.neg l => rw [hsp]
              exact neg_double (Lit.var l)
            exact ⟨hsp ▸ hl, hnl ▸ hneg⟩
          · have hnl : Lit.neg l = 2 * Lit.var l := by
              conv in Lit.neg l => rw [hsp]
              exact neg_double_succ (Lit.var l)
            exact ⟨hnl ▸ hneg, hsp ▸ hl⟩
        have hva : a (Lit.var l) = none := by
          cases hav : a (Lit.var l) with
          | none => rfl
          | some b =>
            cases b
            · have hodd : litValue a (2 * Lit.var l + 1) = some true := by
                rw [litValue_double_succ, hav]
                rfl
              exact absurd hodd (hT _ hpair.2)
            · have hevn : litValue a (2 * Lit.var l) = some true := by
                rw [litValue_double, hav]
              exact absurd hevn (hT _ hpair.1)
        refine sccGo_none_taut a (Lit.var l) hva _ none [] hsort
          (Or.inl ⟨(hmem _).mpr hpair.1, (hmem _).mpr hpair.2⟩) ?_
        intro p' hp'
        cases hp'
  · intro hT htaut
    have hT' : ∀ l ∈ ps.insertionSort (· ≤ ·), litValue a l ≠ some true := by
      intro l hl hv
      exact hT ⟨l, (hmem l).mp hl, hv⟩
    have htaut' : ∀ l ∈ ps.insertionSort (· ≤ ·),
        Lit.neg l ∉ ps.insertionSort (· ≤ ·) := by
      intro l hl hc
      exact htaut ⟨l, (hmem l).mp hl, (hmem _).mp hc⟩
    obtain ⟨q, hq⟩ :=
      sccGo_some a (ps.insertionSort (· ≤ ·)) none [] hT' htaut'
        (fun p' hp' => by cases hp')
    refine ⟨q, hq, ?_, ?_⟩
    · exact sccGo_nodup a (ps.insertionSort (· ≤ ·)) none [] q hsort
        List.Pairwise.nil (fun p' hp' => by cases hp')
        (fun p' hp' => by cases hp') (fun _ => rfl) hq
    · intro m
      have hbase := sccGo_mem a (ps.insertionSort (· ≤ ·)) none [] q
        (fun p' hp' => by cases hp') hq m
      rw [hbase]
      simp [hmem m]
  · intro prop remove_frat s red h
    simp [add_clause_int, h]
  · intro prop remove_frat s red q h hlen
    rcases q with _ | ⟨x, _ | ⟨y, _ | ⟨z, rest⟩⟩⟩
    · simp at hlen
    · simp at hlen
    · simp at hlen
    · simp [add_clause_int, h]

theorem sort_and_clean_spec_witness :
    sort_and_clean_clause (fun _ => none) [0, 1] = none :=
  (sort_and_clean_spec (fun _ => none) [0, 1]).1
    (Or.inr ⟨0, by decide, by decide⟩)

/-- When the clause cleans to the empty clause, `add_clause_int` clears
`ok` and records `unsat_cl_ID = clauseID` (the ID drawn for the clause,
counter bumped or not depending on `remove_frat`). -/
theorem add_clause_int_clean_empty (prop : SolverState → SolverState)
    (remove_frat : Bool) (s : SolverState) (lits : List Nat) (red : Bool)
    (h : sort_and_clean_clause s.assign lits = some []) :
    ∃ c, add_clause_int prop remove_frat s lits red =
        ({ s with clauseID := c, ok := false, unsat_cl_ID := c }, none)
      ∧ (c = s.clauseID ∨ c = s.clauseID + 1) := by
  simp only [add_clause_int, h]
  split_ifs with h1 h2
  · exact ⟨s.clauseID + 1, rfl, Or.inr rfl⟩
  · exact ⟨s.clauseID, rfl, Or.inl rfl⟩
  · exact ⟨s.clauseID + 1, rfl, Or.inr rfl⟩

/-- C1: adding a clause that cleans to the empty clause at top level
makes `add_clause_outside` return `false` with `ok` cleared and the
empty-clause ID recorded in `unsat_cl_ID`; afterwards `add_clause_outside`
short-circuits to `false` leaving the state untouched, and
`solve_with_assumptions` returns `l_False` whatever the search would do. -/
theorem empty_clause_unsat (prop : SolverState → SolverState) (s : SolverState)
    (ps : List Nat) (red : Bool)
    (hok : s.ok = true)
    (hgate : ¬(s.perform_occur_based_simp = true ∧ s.anythingHasBeenElimed = true))
    (hlen : ps.length ≤ 2 ^ 28)
    (hclean : sort_and_clean_clause s.assign ps = some []) :
    ∃ s' : SolverState,
      add_clause_outside prop s ps red = AddOutcome.res false s'
      ∧ s'.ok = false
      ∧ s'.unsat_cl_ID = s'.clauseID
      ∧ (∀ prop2 lits2 red2,
          add_clause_outside prop2 s' lits2 red2 = AddOutcome.res false s')
      ∧ (∀ search, solve_with_assumptions search s' = Lbool.lfalse) := by
  have hg : (s.perform_occur_based_simp && s.anythingHasBeenElimed) = false := by
    cases hp : s.perform_occur_based_simp <;> cases ha : s.anythingHasBeenElimed <;>
      simp_all
  have hclean1 : sort_and_clean_clause
      (SolverState.assign { s with clauseID := s.clauseID + 1 }) ps = some [] := hclean
  obtain ⟨c, hint, _⟩ :=
    add_clause_int_clean_empty prop true { s with clauseID := s.clauseID + 1 } ps red
      hclean1
  have hlen' : ¬(2 ^ 28 < ps.length) := not_lt.mpr hlen
  have cok : ¬((!s.ok) = true) := by simp [hok]
  have cgate : ¬((s.perform_occur_based_simp && s.anythingHasBeenElimed) = true) := by
    simp [hg]
  refine ⟨{ s with clauseID := c, ok := false, unsat_cl_ID := c }, ?_, rfl, rfl, ?_, ?_⟩
  · simp only [add_clause_outside, add_clause_outer]
    rw [if_neg cok, if_neg cgate, if_neg cok, if_neg hlen', hint]
  · intro prop2 lits2 red2
    simp [add_clause_outside]
  · intro search
    simp [solve_with_assumptions]

theorem empty_clause_unsat_witness :
    ∃ s' : SolverState,
      add_clause_outside id
          { initState with assign := fun v => if v = 0 then some false else none }
          [0] false = AddOutcome.res false s'
      ∧ s'.ok = false
      ∧ s'.unsat_cl_ID = s'.clauseID
      ∧ (∀ prop2 lits2 red2,
          add_clause_outside prop2 s' lits2 red2 = AddOutcome.res false s')
      ∧ (∀ search, solve_with_assumptions search s' = Lbool.lfalse) :=
  empty_clause_unsat id
    { initState with assign := fun v => if v = 0 then some false else none }
    [0] false rfl (by simp [initState]) (by norm_num) (by decide)

/-- C2 (amended): the regular clause-adding path throws
`TooLongClauseError` exactly when the clause has more than `2^28`
literals (so a clause of exactly `2^28` literals is accepted), and the
throw leaves the solver fields other than the ID counter untouched; the
XOR path's capacity check instead fires at `2^28` or more literals of
the cleaned XOR. -/
theorem too_long_clause_spec (prop : SolverState → SolverState) (s : SolverState)
    (ps : List Nat) (red : Bool)
    (hok : s.ok = true)
    (hgate : ¬(s.perform_occur_based_simp = true ∧ s.anythingHasBeenElimed = true)) :
    ((add_clause_outside prop s ps red).isTooLong = true ↔ 2 ^ 28 < ps.length)
    ∧ (∀ s', add_clause_outside prop s ps red = AddOutcome.tooLong s' →
        s'.ok = s.ok ∧ s'.assign = s.assign ∧ s'.trail = s.trail
        ∧ s'.binCls = s.binCls ∧ s'.longIrredCls = s.longIrredCls
        ∧ s'.longRedCls2 = s.longRedCls2 ∧ s'.xorclauses = s.xorclauses)
    ∧ (∀ qs rhs, (add_xor_clause_inter prop s qs rhs).isTooLong = true ↔
        2 ^ 28 ≤ qs.length) := by
  have hg : (s.perform_occur_based_simp && s.anythingHasBeenElimed) = false := by
    cases hp : s.perform_occur_based_simp <;> cases ha : s.anythingHasBeenElimed <;>
      simp_all
  have cok : ¬((!s.ok) = true) := by simp [hok]
  have cgate : ¬((s.perform_occur_based_simp && s.anythingHasBeenElimed) = true) := by
    simp [hg]
  refine ⟨?_, ?_, ?_⟩
  · by_cases hl : 2 ^ 28 < ps.length
    · simp only [add_clause_outside, add_clause_outer]
      rw [if_neg cok, if_neg cgate, if_neg cok, if_pos hl]
      simp only [AddOutcome.isTooLong]
      constructor
      · intro _
        exact hl
      · intro _
        trivial
    · simp only [add_clause_outside, add_clause_outer]
      rw [if_neg cok, if_neg cgate, if_neg cok, if_neg hl]
      rcases hint : add_clause_int prop true { s with clauseID := s.clauseID + 1 } ps red
        with ⟨s2, copt⟩
      cases copt with
      | none =>
        simp [AddOutcome.isTooLong]
        omega
      | some cl =>
        by_cases hr : red = true <;> simp [AddOutcome.isTooLong, hr] <;> omega
  · intro s' h
    by_cases hl : 2 ^ 28 < ps.length
    · simp only [add_clause_outside, add_clause_outer] at h
      rw [if_neg cok, if_neg cgate, if_neg cok, if_pos hl] at h
      injection h with h
      subst h
      exact ⟨rfl, rfl, rfl, rfl, rfl, rfl, rfl⟩
    · simp only [add_clause_outside, add_clause_outer] at h
      rw [if_neg cok, if_neg cgate, if_neg cok, if_neg hl] at h
      rcases hint : add_clause_int prop true { s with clauseID := s.clauseID + 1 } ps red
        with ⟨s2, copt⟩
      rw [hint] at h
      cases copt with
      | none => simp at h
      | some cl =>
        by_cases hr : red = true <;> simp [hr] at h
  · intro qs rhs
    simp only [add_xor_clause_inter]
    by_cases hl : 2 ^ 28 ≤ qs.length
    · rw [if_pos hl]
      simp only [XorOutcome.isTooLong]
      constructor
      · intro _
        exact hl
      · intro _
        trivial
    · rw [if_neg hl]
      rcases qs with _ | ⟨l1, rest1⟩
      · cases rhs <;> norm_num [XorOutcome.isTooLong]
      · rcases rest1 with _ | ⟨l2, rest2⟩
        · norm_num [XorOutcome.isTooLong]
        · rcases rest2 with _ | ⟨l3, rest3⟩
          · norm_num [XorOutcome.isTooLong]
          · simp only [List.length_cons] at hl
            simp [XorOutcome.isTooLong, List.length_cons]
            omega

theorem too_long_clause_spec_witness :
    ((add_clause_outside id initState [5] false).isTooLong = true ↔
      2 ^ 28 < ([5] : List Nat).length)
    ∧ (∀ s', add_clause_outside id initState [5] false = AddOutcome.tooLong s' →
        s'.ok = initState.ok ∧ s'.assign = initState.assign
        ∧ s'.trail = initState.trail ∧ s'.binCls = initState.binCls
        ∧ s'.longIrredCls = initState.longIrredCls
        ∧ s'.longRedCls2 = initState.longRedCls2
        ∧ s'.xorclauses = initState.xorclauses)
    ∧ (∀ qs rhs, (add_xor_clause_inter id initState qs rhs).isTooLong = true ↔
        2 ^ 28 ≤ qs.length) :=
  too_long_clause_spec id initState [5] false rfl (by simp [initState])

/-- All-zero clauses stay sorted. -/
theorem sorted_replicate_zero (n : Nat) :
    List.Sorted (· ≤ ·) (List.replicate n (0 : Nat)) := by
  induction n with
  | zero => simp
  | succ m ih =>
    rw [List.replicate_succ]
    exact List.Pairwise.cons (fun x _ => Nat.zero_le x) ih

/-- The cleaning loop drops duplicate copies of literal `0`. -/
theorem sccGo_replicate_zero (a : Assignment) (ha : a 0 = none) :
    ∀ n, sccGo a (some 0) [0] (List.replicate n 0) = some [0] := by
  have hval : litValue a 0 = none := by
    simp [litValue, Lit.var, Lit.sign, ha]
  intro n
  induction n with
  | zero => rfl
  | succ m ih =>
    rw [List.replicate_succ]
    simp only [sccGo, hval]
    have c1 : ¬((none : Option Bool) = some true) := by simp
    have c2 : ¬(Option.map Lit.neg (some 0) = some (0 : Nat)) := by decide
    have c3 : ¬((none : Option Bool) ≠ some false ∧ some (0 : Nat) ≠ some 0) := by
      simp
    rw [if_neg c1, if_neg c2, if_neg c3]
    exact ih

/-- Cleaning `n ≥ 1` copies of literal `0` under an empty assignment
keeps a single copy. -/
theorem sort_and_clean_replicate (a : Assignment) (ha : a 0 = none)
    (n : Nat) (hn : 1 ≤ n) :
    sort_and_clean_clause a (List.replicate n 0) = some [0] := by
  have hval : litValue a 0 = none := by
    simp [litValue, Lit.var, Lit.sign, ha]
  rw [sort_and_clean_clause, (sorted_replicate_zero n).insertionSort_eq]
  obtain ⟨m, rfl⟩ : ∃ m, n = m + 1 := ⟨n - 1, by omega⟩
  rw [List.replicate_succ]
  simp only [sccGo, hval]
  have c1 : ¬((none : Option Bool) = some true) := by simp
  have c2 : ¬(Option.map Lit.neg (none : Option Nat) = some (0 : Nat)) := by simp
  have c3 : (none : Option Bool) ≠ some false ∧ some (0 : Nat) ≠ none := by simp
  rw [if_neg c1, if_neg c2, if_pos c3]
  exact sccGo_replicate_zero a ha m

/-- A clause that cleans to a unit makes `add_clause_int` return `NULL`
(after enqueue and propagation). -/
theorem add_clause_int_snd_unit (prop : SolverState → SolverState)
    (remove_frat : Bool) (s : SolverState) (lits : List Nat) (red : Bool) (l : Nat)
    (h : sort_and_clean_clause s.assign lits = some [l]) :
    ∃ s2, add_clause_int prop remove_frat s lits red = (s2, none) := by
  simp only [add_clause_int, h]
  split_ifs <;> exact ⟨_, rfl⟩

/-- A not-too-long clause that cleans to a unit passes the length check
and is consumed without a capacity error. -/
theorem add_clause_outside_unit_res (prop : SolverState → SolverState)
    (s : SolverState) (ps : List Nat) (red : Bool) (l : Nat)
    (hok : s.ok = true)
    (hgate : ¬(s.perform_occur_based_simp = true ∧ s.anythingHasBeenElimed = true))
    (hlen : ¬(2 ^ 28 < ps.length))
    (h : sort_and_clean_clause s.assign ps = some [l]) :
    (add_clause_outside prop s ps red).isTooLong = false := by
  have hg : (s.perform_occur_based_simp && s.anythingHasBeenElimed) = false := by
    cases hp : s.perform_occur_based_simp <;> cases ha : s.anythingHasBeenElimed <;>
      simp_all
  have cok : ¬((!s.ok) = true) := by simp [hok]
  have cgate : ¬((s.perform_occur_based_simp && s.anythingHasBeenElimed) = true) := by
    simp [hg]
  obtain ⟨s2, hint⟩ := add_clause_int_snd_unit prop true
    { s with clauseID := s.clauseID + 1 } ps red l h
  simp only [add_clause_outside, add_clause_outer]
  rw [if_neg cok, if_neg cgate, if_neg cok, if_neg hlen, hint]
  rfl

/-- C2 counterexample: a regular clause of exactly `2^28` literals does
not raise the capacity error (the check is strict), while the XOR-side
check does fire at exactly `2^28` literals — refuting "at least 2^28,
and the same bound for XOR". -/
theorem too_long_at_exactly_2_28 :
    (add_clause_outside id initState (List.replicate (2 ^ 28) 0) false).isTooLong = false
    ∧ (add_xor_clause_inter id initState (List.replicate (2 ^ 28) 0) false).isTooLong
        = true := by
  constructor
  · refine add_clause_outside_unit_res id initState (List.replicate (2 ^ 28) 0)
      false 0 rfl (by simp [initState]) ?_ ?_
    · rw [List.length_replicate]
      omega
    · exact sort_and_clean_replicate _ rfl (2 ^ 28) (by norm_num)
  · unfold add_xor_clause_inter
    rw [List.length_replicate]
    rw [if_pos (le_refl (2 ^ 28))]
    rfl

end CMS
